import Mathlib

/-!
Verification of the subtitle-normalization core of the vsubtitle repository.

The repository contains several variants of the same helpers; the embedding
below models, character-list by character-list, the exact JavaScript string
pipelines of:

* `normalizeSrt` in `src/services/geminiService.ts` (lines 9-16): the
  join-based variant (`trim` / `split(/\n\s*\n/)` / `map trim` /
  `filter nonempty` / `join('\n\n')` / `+ '\n\n'`), modelled as
  `normalizeSrt_g`;
* `normalizeSrt` in `src/unnamed/part_000` (lines 7-22): the per-entry
  renumbering variant that drops blocks without a timestamp line and blocks
  with no text lines, modelled as `normalizeSrt_p0`;
* `normalizeSrt` in `src/unnamed/part_002` (lines 8-21): like part_000 but
  without the empty-text check, modelled as `normalizeSrt_p2`;
* the SRT cleanup in `mergeVideoAndSubtitles` of
  `src/services/ffmpegService.ts` (lines 52-56), modelled as `cleanSrtFf`;
* the SRT-anchor extraction regex in `translateSubtitles` of
  `src/services/geminiService.ts` (line 226) and `src/unnamed/part_000`
  (line 71), modelled as `extractSrt`;
* the code-fence stripping in `translateSubtitles` of
  `src/services/geminiService.ts` (lines 62-65) and `cleanAssOutput`
  (lines 82-88), modelled as `stripFenceLang`, `stripFence3` and
  `sanitizeFences`.

Strings are modelled as `List Char`.  JavaScript regex constructs are
compiled to explicit recursive scanners; where a scanner is not structurally
recursive it is written with an explicit fuel argument (always called with
fuel at least the length of the input) so that every definition evaluates
inside the kernel.
-/

namespace VSub

/-- The set of characters matched by the JavaScript regex class `\s` and
trimmed by `String.prototype.trim`: ASCII whitespace, NBSP, the Ogham space
mark, the Unicode space separators, line and paragraph separators, the
narrow and medium mathematical spaces, the ideographic space, and the
zero-width no-break space. -/
def isWs (c : Char) : Bool :=
  c = ' ' || c = '\t' || c = '\n' || c = '\u000B' || c = '\u000C' || c = '\r' ||
    c = '\u00A0' || c = '\u1680' || ('\u2000' ≤ c && c ≤ '\u200A') || c = '\u2028' ||
    c = '\u2029' || c = '\u202F' || c = '\u205F' || c = '\u3000' || c = '\uFEFF'

/-- `String.prototype.trim`: remove leading and trailing whitespace. -/
def jsTrim (l : List Char) : List Char :=
  ((l.dropWhile isWs).reverse.dropWhile isWs).reverse

/-- Prepend a character to the first piece of a split result. -/
def consHead (c : Char) : List (List Char) → List (List Char)
  | [] => [[c]]
  | p :: ps => (c :: p) :: ps

/-- The `\s*\n` part of the separator regex `/\n\s*\n/`, matched greedily:
given the characters after a leading `'\n'`, consume the longest prefix
consisting of whitespace followed by a final `'\n'`, returning the
remainder; `none` when no such prefix exists. -/
def greedyWsNl : List Char → Option (List Char)
  | [] => none
  | c :: cs =>
    if isWs c then
      match greedyWsNl cs with
      | some r => some r
      | none => if c = '\n' then some cs else none
    else none

/-- Fuelled worker for `String.prototype.split(/\n\s*\n/)`. -/
def jsSplitF : Nat → List Char → List (List Char)
  | _, [] => [[]]
  | 0, l => [l]
  | fuel + 1, c :: cs =>
    if c = '\n' then
      match greedyWsNl cs with
      | some rest => [] :: jsSplitF fuel rest
      | none => consHead c (jsSplitF fuel cs)
    else consHead c (jsSplitF fuel cs)

/-- `String.prototype.split(/\n\s*\n/)`: split on blank-line separators
(a newline, optional whitespace, and a final newline, matched greedily,
scanning left to right). -/
def jsSplit (l : List Char) : List (List Char) := jsSplitF l.length l

/-- `String.prototype.split('\n')`. -/
def splitNl : List Char → List (List Char)
  | [] => [[]]
  | c :: cs => if c = '\n' then [] :: splitNl cs else consHead c (splitNl cs)

/-- `Array.prototype.join(sep)`. -/
def joinWith (sep : List Char) : List (List Char) → List Char
  | [] => []
  | [p] => p
  | p :: ps => p ++ (sep ++ joinWith sep ps)

/-- Prepend a character list to the first piece of a split result (used to
describe how `jsSplit` scans through a separator-free prefix). -/
def consHeadAll (p : List Char) : List (List Char) → List (List Char)
  | [] => [p]
  | q :: qs => (p ++ q) :: qs

/-- Decimal rendering of a natural number, as a character list. -/
def natStr (n : Nat) : List Char := (Nat.repr n).data

/-- `map` with the element index, as in `Array.prototype.map((x, i) => ...)`,
starting the count at `n`. -/
def enumF {α : Type} (n : Nat) : List α → List (Nat × α)
  | [] => []
  | a :: as => (n, a) :: enumF (n + 1) as

/-- The literal searched for by `l.includes(' --> ')`. -/
def arrowPat : List Char := (" --> ").data

/-- `String.prototype.includes(' --> ')`. -/
def hasArrow : List Char → Bool
  | [] => false
  | c :: cs => arrowPat.isPrefixOf (c :: cs) || hasArrow cs

/-- `entry.trim().split('\n')`, the line list of one SRT block in the
part_000 and part_002 variants of `normalizeSrt`. -/
def linesOf (entry : List Char) : List (List Char) := splitNl (jsTrim entry)

/-- `lines.findIndex(l => l.includes(' --> '))`, with `-1` as `none`. -/
def tsIdx (entry : List Char) : Option Nat := (linesOf entry).findIdx? hasArrow

/-- The text lines of a block: everything after the timestamp line. -/
def textLinesOf (entry : List Char) : List (List Char) :=
  match tsIdx entry with
  | none => []
  | some k => (linesOf entry).drop (k + 1)

/-- One entry of the `entries.map((entry, index) => ...)` callback in
`normalizeSrt` of `src/unnamed/part_000`: drop the block when it has no
timestamp line or no text lines, otherwise emit
`index+1 \n timestamps \n textLines.join('\n') \n`.  The JavaScript `''`
result is the empty list. -/
def cueOf_p0 (i : Nat) (entry : List Char) : List Char :=
  match tsIdx entry with
  | none => []
  | some k =>
    let timestamps := (linesOf entry).getD k []
    let textLines := (linesOf entry).drop (k + 1)
    if textLines.isEmpty then []
    else natStr (i + 1) ++ ['\n'] ++ timestamps ++ ['\n'] ++ joinWith ['\n'] textLines ++ ['\n']

/-- The surviving cue strings of `normalizeSrt` in `src/unnamed/part_000`:
`content.trim().split(/\n\s*\n/).map((entry, index) => ...).filter(Boolean)`. -/
def srtCues_p0 (content : List Char) : List (List Char) :=
  ((enumF 0 (jsSplit (jsTrim content))).map (fun p => cueOf_p0 p.1 p.2)).filter
    (fun c => !c.isEmpty)

/-- `normalizeSrt` of `src/unnamed/part_000` (lines 7-22). -/
def normalizeSrt_p0 (content : List Char) : List Char :=
  joinWith ['\n'] (srtCues_p0 content)

/-- One entry of the map in `normalizeSrt` of `src/unnamed/part_002`: like
the part_000 variant but with no check that the text-line list is nonempty. -/
def cueOf_p2 (i : Nat) (entry : List Char) : List Char :=
  match tsIdx entry with
  | none => []
  | some k =>
    natStr (i + 1) ++ ['\n'] ++ (linesOf entry).getD k [] ++ ['\n'] ++
      joinWith ['\n'] ((linesOf entry).drop (k + 1)) ++ ['\n']

/-- The surviving cue strings of `normalizeSrt` in `src/unnamed/part_002`. -/
def srtCues_p2 (content : List Char) : List (List Char) :=
  ((enumF 0 (jsSplit (jsTrim content))).map (fun p => cueOf_p2 p.1 p.2)).filter
    (fun c => !c.isEmpty)

/-- `normalizeSrt` of `src/unnamed/part_002` (lines 8-21). -/
def normalizeSrt_p2 (content : List Char) : List Char :=
  joinWith ['\n'] (srtCues_p2 content)

/-- The trimmed nonempty blocks of `normalizeSrt` in
`src/services/geminiService.ts`:
`content.trim().split(/\n\s*\n/).map(block => block.trim()).filter(block => block.length > 0)`. -/
def trimmedBlocks_g (content : List Char) : List (List Char) :=
  ((jsSplit (jsTrim content)).map jsTrim).filter (fun b => !b.isEmpty)

/-- `normalizeSrt` of `src/services/geminiService.ts` (lines 9-16). -/
def normalizeSrt_g (content : List Char) : List Char :=
  joinWith ['\n', '\n'] (trimmedBlocks_g content) ++ ['\n', '\n']

/-- `srtContent.replace(/^\uFEFF/, '')`: remove one leading byte-order mark. -/
def stripBom : List Char → List Char
  | [] => []
  | c :: cs => if c = '\uFEFF' then cs else c :: cs

/-- `replace(/\r\n/g, '\n')`: left-to-right global replacement of CRLF,
scanning for the next CRLF pair. -/
def crlfToLf : List Char → List Char
  | [] => []
  | [c] => [c]
  | c :: d :: rest =>
    if c = '\r' ∧ d = '\n' then '\n' :: crlfToLf rest else c :: crlfToLf (d :: rest)

/-- `replace(/\r/g, '\n')`. -/
def crToLf (l : List Char) : List Char := l.map (fun c => if c = '\r' then '\n' else c)

/-- The `cleanSrt` pipeline of `mergeVideoAndSubtitles` in
`src/services/ffmpegService.ts` (lines 52-56): strip a leading BOM,
normalize CRLF and stray CR to LF, trim, and append one blank line. -/
def cleanSrtFf (srtContent : List Char) : List Char :=
  jsTrim (crToLf (crlfToLf (stripBom srtContent))) ++ ['\n', '\n']

/-- Re-encode a LF-terminated text with Windows CRLF line endings (used to
state the claim about line-ending normalization). -/
def toCrlf : List Char → List Char
  | [] => []
  | c :: cs => if c = '\n' then '\r' :: '\n' :: toCrlf cs else c :: toCrlf cs

/-- `\d+` followed by something: consume a maximal nonempty digit run. -/
def dropDigits1 : List Char → Option (List Char)
  | [] => none
  | c :: cs => if c.isDigit then some (cs.dropWhile Char.isDigit) else none

/-- `\s+` followed by something: consume a maximal nonempty whitespace run. -/
def dropWs1 : List Char → Option (List Char)
  | [] => none
  | c :: cs => if isWs c then some (cs.dropWhile isWs) else none

/-- `\d{2}:\d{2}:\d{2},\d{3}`: one SRT timestamp. -/
def parseTs : List Char → Option (List Char)
  | a :: b :: ':' :: c :: d :: ':' :: e :: f :: ',' :: g :: h :: i :: rest =>
    if a.isDigit && b.isDigit && c.isDigit && d.isDigit && e.isDigit && f.isDigit &&
        g.isDigit && h.isDigit && i.isDigit then some rest else none
  | _ => none

/-- The literal `-->`. -/
def dropArrowLit : List Char → Option (List Char)
  | '-' :: '-' :: '>' :: rest => some rest
  | _ => none

/-- Whether the regex
`/(\d+\s+\d{2}:\d{2}:\d{2},\d{3}\s+-->\s+\d{2}:\d{2}:\d{2},\d{3}[\s\S]*)/`
matches starting exactly at the head of `l`.  Every quantifier before the
final `[\s\S]*` is forced (digits, whitespace and the fixed-width timestamp
alternate between disjoint character classes), so the backtracking regex is
equivalent to this deterministic scanner. -/
def anchorAt (l : List Char) : Bool :=
  match dropDigits1 l with
  | none => false
  | some r1 =>
    match dropWs1 r1 with
    | none => false
    | some r2 =>
      match parseTs r2 with
      | none => false
      | some r3 =>
        match dropWs1 r3 with
        | none => false
        | some r4 =>
          match dropArrowLit r4 with
          | none => false
          | some r5 =>
            match dropWs1 r5 with
            | none => false
            | some r6 => (parseTs r6).isSome

/-- The suffix of the input starting at the leftmost position where the
anchor regex matches, if any. -/
def findAnchor : List Char → Option (List Char)
  | [] => none
  | c :: cs => if anchorAt (c :: cs) then some (c :: cs) else findAnchor cs

/-- The SRT-extraction step of `translateSubtitles`
(`src/services/geminiService.ts` line 226, `src/unnamed/part_000` line 71):
`const srtMatch = rawText.match(/(\d+\s+...[\s\S]*)/);`
`let cleanedSrt = srtMatch ? srtMatch[0] : rawText;`
Since the regex ends in a greedy `[\s\S]*`, the matched substring is the
whole suffix starting at the leftmost match position. -/
def extractSrt (rawText : List Char) : List Char := (findAnchor rawText).getD rawText

/-- The backtick character, U+0060. -/
def btick : Char := Char.ofNat 96

/-- Whether the list starts with three backticks. -/
def startsFence : List Char → Bool
  | a :: b :: c :: _ => a = btick && b = btick && c = btick
  | _ => false

/-- The character class `[a-z]` under the `i` flag: ASCII letters. -/
def isAsciiAlpha (c : Char) : Bool := ('a' ≤ c && c ≤ 'z') || ('A' ≤ c && c ≤ 'Z')

/-- After an opening triple backtick, consume `[a-z]*` (greedily) and then an
optional `\n`. -/
def dropLangNl (l : List Char) : List Char :=
  if (l.dropWhile isAsciiAlpha).head? = some '\n' then (l.dropWhile isAsciiAlpha).tail
  else l.dropWhile isAsciiAlpha

/-- Fuelled worker for `replace(/\x60\x60\x60[a-z]*\n?/gi, '')`. -/
def sflF : Nat → List Char → List Char
  | _, [] => []
  | 0, l => l
  | fuel + 1, c :: cs =>
    if startsFence (c :: cs) then sflF fuel (dropLangNl (cs.drop 2))
    else c :: sflF fuel cs

/-- `text.replace(/\x60\x60\x60[a-z]*\n?/gi, '')`: remove every fence opener
(three backticks, an optional language tag, an optional newline), scanning
left to right. -/
def stripFenceLang (l : List Char) : List Char := sflF l.length l

/-- Fuelled worker for `replace(/\x60\x60\x60/g, '')`. -/
def sf3F : Nat → List Char → List Char
  | _, [] => []
  | 0, l => l
  | fuel + 1, c :: cs =>
    if startsFence (c :: cs) then sf3F fuel (cs.drop 2)
    else c :: sf3F fuel cs

/-- `text.replace(/\x60\x60\x60/g, '')`: remove every remaining triple
backtick. -/
def stripFence3 (l : List Char) : List Char := sf3F l.length l

/-- Whether three consecutive backticks occur anywhere in the list. -/
def hasTriple : List Char → Bool
  | [] => false
  | c :: cs => startsFence (c :: cs) || hasTriple cs

/-- The fence-cleaning pipeline of `translateSubtitles` in
`src/services/geminiService.ts` (lines 62-65): strip fence openers, strip
remaining triple backticks, then trim. -/
def sanitizeFences (text : List Char) : List Char :=
  jsTrim (stripFence3 (stripFenceLang text))

/-- Whether the separator regex `/\n\s*\n/` matches anywhere in the list:
some position holds `'\n'` and the remainder starts with whitespace leading
to another `'\n'`. -/
def hasSep : List Char → Bool
  | [] => false
  | c :: cs => (c = '\n' && (greedyWsNl cs).isSome) || hasSep cs

/-- A line consisting solely of a positive integer.  Stated from the words
of the specification (section 4.1, `extractSubtitleBody`), for comparison
with the behaviour of the source regex. -/
def isPosIntLine (l : List Char) : Bool :=
  !l.isEmpty && l.all Char.isDigit && l.any (fun c => c ≠ '0')

/-- A line matching the timestamp-arrow-timestamp pattern
`TIMESTAMP --> TIMESTAMP` and nothing more.  Stated from the words of the
specification (section 4.1), for comparison with the source regex. -/
def isTsArrowLine (l : List Char) : Bool :=
  match parseTs l with
  | none => false
  | some r1 =>
    match dropWs1 r1 with
    | none => false
    | some r2 =>
      match dropArrowLit r2 with
      | none => false
      | some r3 =>
        match dropWs1 r3 with
        | none => false
        | some r4 =>
          match parseTs r4 with
          | none => false
          | some r5 => r5.isEmpty

/-- Whether the input contains the anchor described by the specification:
a line consisting solely of a positive integer immediately followed by a
line matching the timestamp-arrow-timestamp pattern.  Stated from the words
of the specification (section 4.1), for comparison with the source regex. -/
def specAnchorExists (s : List Char) : Bool :=
  let lines := splitNl s
  (List.range lines.length).any fun i =>
    isPosIntLine (lines.getD i []) && isTsArrowLine (lines.getD (i + 1) [])

/-!
## Basic lemmas about the fuelled scanners
-/

theorem greedyWsNl_length : ∀ {l r : List Char}, greedyWsNl l = some r → r.length < l.length := by
  intro l
  induction l with
  | nil => intro r h; simp [greedyWsNl] at h
  | cons c cs ih =>
    intro r h
    simp only [greedyWsNl] at h
    split at h
    · split at h
      · rename_i s hg
        cases h
        exact Nat.lt_succ_of_lt (ih hg)
      · split at h
        · cases h; exact Nat.lt_succ_self _
        · cases h
    · cases h

theorem jsSplitF_irrel : ∀ (f₁ : Nat) {l : List Char} (f₂ : Nat),
    l.length ≤ f₁ → l.length ≤ f₂ → jsSplitF f₁ l = jsSplitF f₂ l := by
  intro f₁
  induction f₁ with
  | zero =>
    intro l f₂ h₁ _
    have hl : l = [] := List.eq_nil_of_length_eq_zero (Nat.le_zero.mp h₁)
    subst hl
    cases f₂ <;> rfl
  | succ f ih =>
    intro l f₂ h₁ h₂
    cases l with
    | nil => cases f₂ <;> rfl
    | cons c cs =>
      cases f₂ with
      | zero => simp at h₂
      | succ f₂ =>
        have hcs₁ : cs.length ≤ f := Nat.le_of_succ_le_succ h₁
        have hcs₂ : cs.length ≤ f₂ := Nat.le_of_succ_le_succ h₂
        simp only [jsSplitF]
        by_cases hn : c = '\n'
        · rw [if_pos hn, if_pos hn]
          cases hg : greedyWsNl cs with
          | some rest =>
            have hr := greedyWsNl_length hg
            exact congrArg ([] :: ·)
              (ih f₂ (Nat.le_of_lt (Nat.lt_of_lt_of_le hr hcs₁))
                (Nat.le_of_lt (Nat.lt_of_lt_of_le hr hcs₂)))
          | none => exact congrArg (consHead c) (ih f₂ hcs₁ hcs₂)
        · rw [if_neg hn, if_neg hn]
          exact congrArg (consHead c) (ih f₂ hcs₁ hcs₂)

theorem jsSplit_cons (c : Char) (cs : List Char) :
    jsSplit (c :: cs) =
      if c = '\n' then
        match greedyWsNl cs with
        | some rest => [] :: jsSplit rest
        | none => consHead c (jsSplit cs)
      else consHead c (jsSplit cs) := by
  show jsSplitF (cs.length + 1) (c :: cs) = _
  by_cases hn : c = '\n'
  · simp only [jsSplitF, if_pos hn]
    cases hg : greedyWsNl cs with
    | some rest =>
      have hr := greedyWsNl_length hg
      exact congrArg ([] :: ·)
        (jsSplitF_irrel cs.length rest.length (Nat.le_of_lt hr) (Nat.le_refl _))
    | none => rfl
  · simp only [jsSplitF, if_neg hn]
    rfl

theorem jsSplit_nil : jsSplit [] = [[]] := rfl

theorem jsSplit_sep {l r : List Char} (h : greedyWsNl l = some r) :
    jsSplit ('\n' :: l) = [] :: jsSplit r := by
  rw [jsSplit_cons, if_pos rfl, h]

theorem jsSplit_nosep {l : List Char} (h : greedyWsNl l = none) :
    jsSplit ('\n' :: l) = consHead '\n' (jsSplit l) := by
  rw [jsSplit_cons, if_pos rfl, h]

theorem jsSplit_other {c : Char} {l : List Char} (h : ¬ c = '\n') :
    jsSplit (c :: l) = consHead c (jsSplit l) := by
  rw [jsSplit_cons, if_neg h]

theorem consHead_ne_nil (c : Char) (ps : List (List Char)) : consHead c ps ≠ [] := by
  cases ps <;> simp [consHead]

theorem jsSplit_ne_nil (l : List Char) : jsSplit l ≠ [] := by
  cases l with
  | nil => simp [jsSplit_nil]
  | cons c cs =>
    rw [jsSplit_cons]
    split
    · split
      · simp
      · exact consHead_ne_nil _ _
    · exact consHead_ne_nil _ _

/-!
## A separator match is exactly a whitespace run ending in a newline
-/

theorem greedyWsNl_isSome_of : ∀ (w r : List Char), (∀ x ∈ w, isWs x = true) →
    (greedyWsNl (w ++ '\n' :: r)).isSome = true := by
  intro w
  induction w with
  | nil =>
    intro r _
    simp only [List.nil_append, greedyWsNl]
    rw [if_pos (by decide : isWs '\n' = true)]
    cases greedyWsNl r <;> simp
  | cons x w ih =>
    intro r hw
    simp only [List.cons_append, greedyWsNl]
    rw [if_pos (hw x (List.mem_cons_self x w))]
    have := ih r (fun y hy => hw y (List.mem_cons_of_mem x hy))
    cases hg : greedyWsNl (w ++ '\n' :: r) with
    | some s => rfl
    | none => rw [hg] at this; cases this

theorem greedyWsNl_decomp : ∀ {l : List Char}, (greedyWsNl l).isSome = true →
    ∃ w r, l = w ++ '\n' :: r ∧ ∀ x ∈ w, isWs x = true := by
  intro l
  induction l with
  | nil => intro h; simp [greedyWsNl] at h
  | cons c cs ih =>
    intro h
    simp only [greedyWsNl] at h
    split at h
    · rename_i hws
      split at h
      · rename_i s hg
        obtain ⟨w, r, hl, hw⟩ := ih (by rw [hg]; rfl)
        refine ⟨c :: w, r, by rw [hl, List.cons_append], ?_⟩
        intro x hx
        rcases List.mem_cons.mp hx with rfl | hx
        · exact hws
        · exact hw x hx
      · split at h
        · rename_i hn
          exact ⟨[], cs, by simp [hn], by intro x hx; cases hx⟩
        · cases h
    · cases h

theorem greedyWsNl_append_isSome {v b : List Char} (h : (greedyWsNl v).isSome = true) :
    (greedyWsNl (v ++ b)).isSome = true := by
  obtain ⟨w, r, rfl, hw⟩ := greedyWsNl_decomp h
  have : (w ++ '\n' :: r) ++ b = w ++ '\n' :: (r ++ b) := by simp
  rw [this]
  exact greedyWsNl_isSome_of w (r ++ b) hw

theorem greedyWsNl_append_none {v b : List Char} (hx : ∃ x ∈ v, isWs x = false)
    (h : greedyWsNl v = none) : greedyWsNl (v ++ b) = none := by
  cases hgb : greedyWsNl (v ++ b) with
  | none => rfl
  | some s =>
    exfalso
    obtain ⟨w, r, heq, hw⟩ := greedyWsNl_decomp (l := v ++ b) (by rw [hgb]; rfl)
    rcases List.append_eq_append_iff.mp heq with ⟨a, ha, _⟩ | ⟨c, hc, hd⟩
    · obtain ⟨x, hxv, hxf⟩ := hx
      have : x ∈ w := ha ▸ List.mem_append_left a hxv
      rw [hw x this] at hxf; cases hxf
    · cases c with
      | nil =>
        obtain ⟨x, hxv, hxf⟩ := hx
        rw [List.append_nil] at hc
        have : x ∈ w := hc ▸ hxv
        rw [hw x this] at hxf; cases hxf
      | cons y c =>
        rw [List.cons_append] at hd
        have hy : y = '\n' := (List.cons.injEq _ _ _ _ ▸ hd).1.symm
        subst hy
        have : (greedyWsNl v).isSome = true := by
          rw [hc]
          exact greedyWsNl_isSome_of w c hw
        rw [h] at this; cases this

theorem greedyWsNl_prefix_none {p t : List Char} (h : greedyWsNl (p ++ t) = none) :
    greedyWsNl p = none := by
  cases hg : greedyWsNl p with
  | none => rfl
  | some s =>
    have hs := greedyWsNl_append_isSome (v := p) (b := t) (by rw [hg]; rfl)
    rw [h] at hs; cases hs

/-!
## `jsTrim` yields a contiguous piece of its input
-/

theorem jsTrim_between (l : List Char) : ∃ a b, l = a ++ jsTrim l ++ b := by
  refine ⟨l.takeWhile isWs, ((l.dropWhile isWs).reverse.takeWhile isWs).reverse, ?_⟩
  have h1 : l = l.takeWhile isWs ++ l.dropWhile isWs :=
    (List.takeWhile_append_dropWhile isWs l).symm
  have h2 : (l.dropWhile isWs).reverse =
      (l.dropWhile isWs).reverse.takeWhile isWs ++ (l.dropWhile isWs).reverse.dropWhile isWs :=
    (List.takeWhile_append_dropWhile isWs (l.dropWhile isWs).reverse).symm
  have h3 : l.dropWhile isWs =
      jsTrim l ++ ((l.dropWhile isWs).reverse.takeWhile isWs).reverse := by
    have h4 := congrArg List.reverse h2
    rw [List.reverse_reverse, List.reverse_append] at h4
    exact h4
  rw [List.append_assoc, ← h3]
  exact h1

/-!
## Lemmas about `hasSep`
-/

theorem hasSep_append_left {t : List Char} (a : List Char) (h : hasSep t = true) :
    hasSep (a ++ t) = true := by
  induction a with
  | nil => exact h
  | cons x a ih =>
    show hasSep (x :: (a ++ t)) = true
    simp only [hasSep, Bool.or_eq_true]
    exact Or.inr ih

theorem hasSep_append_right {t : List Char} (b : List Char) (h : hasSep t = true) :
    hasSep (t ++ b) = true := by
  induction t with
  | nil => cases h
  | cons x t ih =>
    simp only [hasSep, Bool.or_eq_true, Bool.and_eq_true] at h
    simp only [List.cons_append, hasSep, Bool.or_eq_true, Bool.and_eq_true]
    rcases h with ⟨hx, hg⟩ | h
    · exact Or.inl ⟨hx, greedyWsNl_append_isSome hg⟩
    · exact Or.inr (ih h)

theorem hasSep_between {c t d : List Char} (h : hasSep (c ++ t ++ d) = false) :
    hasSep t = false := by
  cases hst : hasSep t with
  | false => rfl
  | true =>
    have h1 := hasSep_append_right d hst
    have h2 := hasSep_append_left c h1
    rw [← List.append_assoc] at h2
    rw [h2] at h; cases h

theorem hasSep_jsTrim {l : List Char} (h : hasSep l = false) :
    hasSep (jsTrim l) = false := by
  obtain ⟨a, b, hab⟩ := jsTrim_between l
  exact hasSep_between (c := a) (d := b) (hab ▸ h)

/-!
## The pieces produced by `jsSplit` are separator-free prefixes
-/

theorem jsSplit_head_pre_aux : ∀ (n : Nat) (l : List Char), l.length ≤ n →
    ∀ p ps, jsSplit l = p :: ps → ∃ t, l = p ++ t := by
  intro n
  induction n with
  | zero =>
    intro l hl p ps h
    have he : l = [] := List.eq_nil_of_length_eq_zero (Nat.le_zero.mp hl)
    subst he
    rw [jsSplit_nil] at h
    cases h
    exact ⟨[], rfl⟩
  | succ n ih =>
    intro l hl p ps h
    cases l with
    | nil =>
      rw [jsSplit_nil] at h
      cases h
      exact ⟨[], rfl⟩
    | cons c cs =>
      have hcs : cs.length ≤ n := Nat.le_of_succ_le_succ hl
      by_cases hn : c = '\n'
      · subst hn
        cases hg : greedyWsNl cs with
        | some rest =>
          rw [jsSplit_sep hg] at h
          cases h
          exact ⟨'\n' :: cs, rfl⟩
        | none =>
          rw [jsSplit_nosep hg] at h
          cases hsc : jsSplit cs with
          | nil => exact absurd hsc (jsSplit_ne_nil cs)
          | cons q qs =>
            rw [hsc] at h
            simp only [consHead] at h
            cases h
            obtain ⟨t, ht⟩ := ih cs hcs _ _ hsc
            exact ⟨t, by rw [List.cons_append, ← ht]⟩
      · rw [jsSplit_other hn] at h
        cases hsc : jsSplit cs with
        | nil => exact absurd hsc (jsSplit_ne_nil cs)
        | cons q qs =>
          rw [hsc] at h
          simp only [consHead] at h
          cases h
          obtain ⟨t, ht⟩ := ih cs hcs _ _ hsc
          exact ⟨t, by rw [List.cons_append, ← ht]⟩

theorem jsSplit_head_pre {l p : List Char} {ps : List (List Char)}
    (h : jsSplit l = p :: ps) : ∃ t, l = p ++ t :=
  jsSplit_head_pre_aux l.length l (Nat.le_refl _) p ps h

theorem jsSplit_pieces_noSep_aux : ∀ (n : Nat) (l : List Char), l.length ≤ n →
    ∀ p ∈ jsSplit l, hasSep p = false := by
  intro n
  induction n with
  | zero =>
    intro l hl p hp
    have he : l = [] := List.eq_nil_of_length_eq_zero (Nat.le_zero.mp hl)
    subst he
    rw [jsSplit_nil] at hp
    rcases List.mem_singleton.mp hp with rfl
    rfl
  | succ n ih =>
    intro l hl p hp
    cases l with
    | nil =>
      rw [jsSplit_nil] at hp
      rcases List.mem_singleton.mp hp with rfl
      rfl
    | cons c cs =>
      have hcs : cs.length ≤ n := Nat.le_of_succ_le_succ hl
      by_cases hn : c = '\n'
      · subst hn
        cases hg : greedyWsNl cs with
        | some rest =>
          rw [jsSplit_sep hg] at hp
          rcases List.mem_cons.mp hp with rfl | hp
          · rfl
          · have hr := greedyWsNl_length hg
            exact ih rest (Nat.le_of_lt (Nat.lt_of_lt_of_le hr hcs)) p hp
        | none =>
          rw [jsSplit_nosep hg] at hp
          cases hsc : jsSplit cs with
          | nil => exact absurd hsc (jsSplit_ne_nil cs)
          | cons q qs =>
            rw [hsc] at hp
            simp only [consHead] at hp
            rcases List.mem_cons.mp hp with rfl | hp
            · -- p = '\n' :: q where q is a prefix of cs and greedyWsNl cs = none
              obtain ⟨t, ht⟩ := jsSplit_head_pre hsc
              have hq : hasSep q = false := ih cs hcs q (hsc ▸ List.mem_cons_self q qs)
              have hgq : greedyWsNl q = none :=
                greedyWsNl_prefix_none (p := q) (t := t) (by rw [← ht]; exact hg)
              show hasSep ('\n' :: q) = false
              simp only [hasSep, Bool.or_eq_false_iff, Bool.and_eq_false_iff]
              exact ⟨Or.inr (by rw [hgq]; rfl), hq⟩
            · exact ih cs hcs p (hsc ▸ List.mem_cons_of_mem q hp)
      · rw [jsSplit_other hn] at hp
        cases hsc : jsSplit cs with
        | nil => exact absurd hsc (jsSplit_ne_nil cs)
        | cons q qs =>
          rw [hsc] at hp
          simp only [consHead] at hp
          rcases List.mem_cons.mp hp with rfl | hp
          · have hq : hasSep q = false := ih cs hcs q (hsc ▸ List.mem_cons_self q qs)
            show hasSep (c :: q) = false
            simp only [hasSep, Bool.or_eq_false_iff, Bool.and_eq_false_iff]
            refine ⟨Or.inl ?_, hq⟩
            simp [hn]
          · exact ih cs hcs p (hsc ▸ List.mem_cons_of_mem q hp)

theorem jsSplit_pieces_noSep {l p : List Char} (hp : p ∈ jsSplit l) : hasSep p = false :=
  jsSplit_pieces_noSep_aux l.length l (Nat.le_refl _) p hp

/-!
## Scanning through a separator-free piece
-/

theorem consHead_consHeadAll (c : Char) (p : List Char) (x : List (List Char)) :
    consHead c (consHeadAll p x) = consHeadAll (c :: p) x := by
  cases x <;> simp [consHead, consHeadAll]

theorem consHeadAll_nil_of_ne {x : List (List Char)} (hx : x ≠ []) :
    consHeadAll [] x = x := by
  cases x with
  | nil => cases hx rfl
  | cons q qs => simp [consHeadAll]

theorem getLast?_tail_of_cons {c : Char} {p : List Char} {d : Char}
    (hp : p ≠ []) (h : (c :: p).getLast? = some d) : p.getLast? = some d := by
  cases p with
  | nil => cases hp rfl
  | cons q qs => rw [List.getLast?_cons_cons] at h; exact h

theorem mem_of_getLast?_eq_some {p : List Char} {d : Char}
    (h : p.getLast? = some d) : d ∈ p := by
  cases p with
  | nil => cases h
  | cons q qs =>
    have := List.getLast?_eq_getLast (q :: qs) (by simp)
    rw [this] at h
    cases h
    exact List.getLast_mem _

theorem jsSplit_append (p : List Char) : ∀ (t : List Char), hasSep p = false →
    (∀ c, p.getLast? = some c → isWs c = false) →
    jsSplit (p ++ t) = consHeadAll p (jsSplit t) := by
  induction p with
  | nil =>
    intro t _ _
    rw [List.nil_append, consHeadAll_nil_of_ne (jsSplit_ne_nil t)]
  | cons c p ih =>
    intro t hs hl
    have hparts : (decide (c = '\n') && (greedyWsNl p).isSome) = false ∧ hasSep p = false := by
      have : hasSep (c :: p) = false := hs
      simp only [hasSep, Bool.or_eq_false_iff] at this
      exact this
    have hsp : hasSep p = false := hparts.2
    have hl' : ∀ d, p.getLast? = some d → isWs d = false := by
      intro d hd
      cases p with
      | nil => cases hd
      | cons q qs => exact hl d (by rw [List.getLast?_cons_cons]; exact hd)
    by_cases hn : c = '\n'
    · subst hn
      -- p cannot be empty: the last character of the piece would be a newline
      cases p with
      | nil =>
        have := hl '\n' rfl
        rw [(by decide : isWs '\n' = true)] at this
        cases this
      | cons q qs =>
        have hgp : greedyWsNl (q :: qs) = none := by
          rcases hparts.1 with h1
          rw [Bool.and_eq_false_iff] at h1
          rcases h1 with h1 | h1
          · simp at h1
          · cases hg : greedyWsNl (q :: qs) with
            | none => rfl
            | some s => rw [hg] at h1; cases h1
        have hlast : ∃ d, (q :: qs).getLast? = some d ∧ isWs d = false := by
          have hne : (q :: qs) ≠ ([] : List Char) := by simp
          cases hld : (q :: qs).getLast? with
          | none => rw [List.getLast?_eq_getLast _ hne] at hld; cases hld
          | some d => exact ⟨d, rfl, hl' d hld⟩
        obtain ⟨d, hld, hdw⟩ := hlast
        have hgpt : greedyWsNl ((q :: qs) ++ t) = none := by
          apply greedyWsNl_append_none
          · exact ⟨d, mem_of_getLast?_eq_some hld, hdw⟩
          · exact hgp
        show jsSplit ('\n' :: ((q :: qs) ++ t)) = _
        rw [jsSplit_nosep hgpt, ih t hsp hl', consHead_consHeadAll]
    · show jsSplit (c :: (p ++ t)) = _
      rw [jsSplit_other hn, ih t hsp hl', consHead_consHeadAll]

/-!
## Splitting the join of separator-free trimmed pieces recovers the pieces
-/

theorem joinWith_ne_nil {q : List Char} {qs : List (List Char)} (sep : List Char)
    (hq : q ≠ []) : joinWith sep (q :: qs) ≠ [] := by
  cases qs with
  | nil => exact hq
  | cons r rs =>
    show q ++ (sep ++ joinWith sep (r :: rs)) ≠ []
    simp [hq]

theorem joinWith_head? {q : List Char} {qs : List (List Char)} (sep : List Char)
    (hq : q ≠ []) : (joinWith sep (q :: qs)).head? = q.head? := by
  cases qs with
  | nil => rfl
  | cons r rs =>
    show (q ++ (sep ++ joinWith sep (r :: rs))).head? = q.head?
    exact List.head?_append_of_ne_nil q hq

theorem jsSplit_joinWith : ∀ ps : List (List Char), ps ≠ [] →
    (∀ p ∈ ps, p ≠ [] ∧ hasSep p = false ∧
      (∀ c, p.head? = some c → isWs c = false) ∧
      (∀ c, p.getLast? = some c → isWs c = false)) →
    jsSplit (joinWith ['\n', '\n'] ps) = ps := by
  intro ps
  induction ps with
  | nil => intro h; cases h rfl
  | cons p ps ih =>
    intro _ hall
    obtain ⟨hpne, hps, hphead, hplast⟩ := hall p (List.mem_cons_self p ps)
    cases ps with
    | nil =>
      show jsSplit p = [p]
      have h1 := jsSplit_append p [] hps hplast
      rw [List.append_nil] at h1
      rw [h1, jsSplit_nil]
      simp [consHeadAll]
    | cons q qs =>
      have hq := hall q (List.mem_cons_of_mem p (List.mem_cons_self q qs))
      have hqne : q ≠ [] := hq.1
      have hjne : joinWith ['\n', '\n'] (q :: qs) ≠ [] := joinWith_ne_nil _ hqne
      have hjhead : ∀ c, (joinWith ['\n', '\n'] (q :: qs)).head? = some c → isWs c = false := by
        intro c hc
        rw [joinWith_head? _ hqne] at hc
        exact hq.2.2.1 c hc
      have hgJ : greedyWsNl (joinWith ['\n', '\n'] (q :: qs)) = none := by
        cases hJ : joinWith ['\n', '\n'] (q :: qs) with
        | nil => cases hjne hJ
        | cons c0 cs0 =>
          have hc0 : isWs c0 = false := hjhead c0 (by rw [hJ]; rfl)
          simp only [greedyWsNl]
          rw [if_neg (by simp [hc0])]
      have hg1 : greedyWsNl ('\n' :: joinWith ['\n', '\n'] (q :: qs)) =
          some (joinWith ['\n', '\n'] (q :: qs)) := by
        simp only [greedyWsNl]
        rw [if_pos (by decide : isWs '\n' = true), hgJ]
        simp
      show jsSplit (p ++ ('\n' :: '\n' :: joinWith ['\n', '\n'] (q :: qs))) = _
      rw [jsSplit_append p _ hps hplast, jsSplit_sep hg1,
        ih (by simp) (fun r hr => hall r (List.mem_cons_of_mem p hr))]
      simp [consHeadAll]


/-!
## Trimming facts: first and last characters of a trimmed list are not
whitespace, trimming a trimmed list is a no-op, and trailing whitespace can
be trimmed away
-/

theorem head?_dropWhile_not {p : Char → Bool} :
    ∀ {l : List Char} {c : Char}, (l.dropWhile p).head? = some c → p c = false := by
  intro l
  induction l with
  | nil => intro c h; cases h
  | cons x xs ih =>
    intro c h
    rw [List.dropWhile_cons] at h
    split at h
    · exact ih h
    · rename_i hpx
      simp only [Bool.not_eq_true] at hpx
      cases h
      exact hpx

theorem dropWhile_eq_jsTrim_append (l : List Char) :
    l.dropWhile isWs = jsTrim l ++ ((l.dropWhile isWs).reverse.takeWhile isWs).reverse := by
  have h2 := (List.takeWhile_append_dropWhile isWs (l.dropWhile isWs).reverse).symm
  have h4 := congrArg List.reverse h2
  rw [List.reverse_reverse, List.reverse_append] at h4
  exact h4

theorem jsTrim_head_not_ws {l : List Char} {c : Char}
    (h : (jsTrim l).head? = some c) : isWs c = false := by
  have hne : jsTrim l ≠ [] := by intro he; rw [he] at h; cases h
  have h5 : (l.dropWhile isWs).head? = some c := by
    rw [dropWhile_eq_jsTrim_append l, List.head?_append_of_ne_nil _ hne, h]
  exact head?_dropWhile_not h5

theorem jsTrim_getLast_not_ws {l : List Char} {c : Char}
    (h : (jsTrim l).getLast? = some c) : isWs c = false := by
  have h1 : (jsTrim l).getLast? =
      ((l.dropWhile isWs).reverse.dropWhile isWs).head? := by
    show (((l.dropWhile isWs).reverse.dropWhile isWs).reverse).getLast? = _
    rw [List.getLast?_reverse]
  rw [h1] at h
  exact head?_dropWhile_not h

theorem dropWhile_eq_self_of_head (l : List Char)
    (hh : ∀ c, l.head? = some c → isWs c = false) : l.dropWhile isWs = l := by
  cases l with
  | nil => rfl
  | cons x xs =>
    rw [List.dropWhile_cons, if_neg (by simp [hh x rfl])]

theorem jsTrim_eq_self {l : List Char}
    (hh : ∀ c, l.head? = some c → isWs c = false)
    (hl : ∀ c, l.getLast? = some c → isWs c = false) : jsTrim l = l := by
  show ((l.dropWhile isWs).reverse.dropWhile isWs).reverse = l
  rw [dropWhile_eq_self_of_head l hh]
  rw [dropWhile_eq_self_of_head l.reverse ?hrev]
  · exact List.reverse_reverse l
  · intro c hc
    rw [List.head?_reverse] at hc
    exact hl c hc

theorem jsTrim_idem (l : List Char) : jsTrim (jsTrim l) = jsTrim l :=
  jsTrim_eq_self (fun _ h => jsTrim_head_not_ws h) (fun _ h => jsTrim_getLast_not_ws h)

theorem jsTrim_append_ws {x : Char} (l : List Char) (hx : isWs x = true) :
    jsTrim (l ++ [x]) = jsTrim l := by
  show (((l ++ [x]).dropWhile isWs).reverse.dropWhile isWs).reverse =
    ((l.dropWhile isWs).reverse.dropWhile isWs).reverse
  rw [List.dropWhile_append]
  split
  · rename_i he
    have hle : l.dropWhile isWs = [] := by
      cases hq : l.dropWhile isWs with
      | nil => rfl
      | cons y ys => rw [hq] at he; simp at he
    rw [hle]
    show (([x].dropWhile isWs).reverse.dropWhile isWs).reverse = _
    rw [show ([x].dropWhile isWs) = [] by simp [List.dropWhile, hx]]
  · rw [List.reverse_append, show [x].reverse = [x] from rfl,
      show ([x] ++ (l.dropWhile isWs).reverse) = x :: (l.dropWhile isWs).reverse from rfl,
      List.dropWhile_cons, if_pos (by simp [hx])]

theorem joinWith_getLast_not_ws : ∀ (sep : List Char) (ps : List (List Char)),
    (∀ p ∈ ps, p ≠ [] ∧ ∀ c, p.getLast? = some c → isWs c = false) →
    ∀ c, (joinWith sep ps).getLast? = some c → isWs c = false := by
  intro sep ps
  induction ps with
  | nil => intro _ c h; cases h
  | cons p ps ih =>
    intro hall c h
    cases ps with
    | nil => exact (hall p (List.mem_cons_self p [])).2 c h
    | cons r rs =>
      have hrne : joinWith sep (r :: rs) ≠ [] :=
        joinWith_ne_nil sep (hall r (List.mem_cons_of_mem p (List.mem_cons_self r rs))).1
      have hsne : sep ++ joinWith sep (r :: rs) ≠ [] := by
        intro hcon
        exact hrne (List.append_eq_nil.mp hcon).2
      have h1 : (joinWith sep (p :: r :: rs)).getLast? =
          (joinWith sep (r :: rs)).getLast? := by
        show (p ++ (sep ++ joinWith sep (r :: rs))).getLast? = _
        rw [List.getLast?_append_of_ne_nil _ hsne, List.getLast?_append_of_ne_nil _ hrne]
      rw [h1] at h
      exact ih (fun x hx => hall x (List.mem_cons_of_mem p hx)) c h


/-!
## Idempotence of the geminiService `normalizeSrt`
-/

theorem trimmedBlocks_g_spec (s : List Char) :
    ∀ p ∈ trimmedBlocks_g s, p ≠ [] ∧ hasSep p = false ∧
      (∀ c, p.head? = some c → isWs c = false) ∧
      (∀ c, p.getLast? = some c → isWs c = false) := by
  intro p hp
  have hp1 := List.mem_filter.mp hp
  obtain ⟨q, hq, rfl⟩ := List.mem_map.mp hp1.1
  refine ⟨?_, hasSep_jsTrim (jsSplit_pieces_noSep hq),
    fun _ h => jsTrim_head_not_ws h, fun _ h => jsTrim_getLast_not_ws h⟩
  intro he
  have := hp1.2
  rw [he] at this
  simp at this

theorem trimmedBlocks_g_trimmed (s : List Char) :
    ∀ p ∈ trimmedBlocks_g s, jsTrim p = p := by
  intro p hp
  obtain ⟨q, _, rfl⟩ := List.mem_map.mp (List.mem_filter.mp hp).1
  exact jsTrim_idem q

theorem map_jsTrim_id : ∀ l : List (List Char), (∀ p ∈ l, jsTrim p = p) →
    l.map jsTrim = l := by
  intro l
  induction l with
  | nil => intro _; rfl
  | cons p ps ih =>
    intro h
    simp only [List.map_cons]
    rw [h p (List.mem_cons_self p ps), ih (fun q hq => h q (List.mem_cons_of_mem p hq))]

theorem filter_nonempty_id : ∀ l : List (List Char), (∀ p ∈ l, p ≠ []) →
    l.filter (fun c => !c.isEmpty) = l := by
  intro l
  induction l with
  | nil => intro _; rfl
  | cons p ps ih =>
    intro h
    rw [List.filter_cons, if_pos ?hp, ih (fun q hq => h q (List.mem_cons_of_mem p hq))]
    case hp =>
      have hne := h p (List.mem_cons_self p ps)
      cases p with
      | nil => cases hne rfl
      | cons a as => rfl

theorem trimmedBlocks_g_of_norm (s : List Char) :
    trimmedBlocks_g (normalizeSrt_g s) = trimmedBlocks_g s := by
  by_cases hP : trimmedBlocks_g s = []
  · have h1 : normalizeSrt_g s = ['\n', '\n'] := by
      show joinWith ['\n', '\n'] (trimmedBlocks_g s) ++ ['\n', '\n'] = _
      rw [hP]
      rfl
    rw [h1, hP]
    rfl
  · have hspec := trimmedBlocks_g_spec s
    have htrim : jsTrim (joinWith ['\n', '\n'] (trimmedBlocks_g s) ++ ['\n', '\n']) =
        joinWith ['\n', '\n'] (trimmedBlocks_g s) := by
      have ha : joinWith ['\n', '\n'] (trimmedBlocks_g s) ++ ['\n', '\n'] =
          (joinWith ['\n', '\n'] (trimmedBlocks_g s) ++ ['\n']) ++ ['\n'] := by simp
      rw [ha, jsTrim_append_ws _ (by decide), jsTrim_append_ws _ (by decide)]
      apply jsTrim_eq_self
      · intro c hc
        cases hQ : trimmedBlocks_g s with
        | nil => cases hP hQ
        | cons q qs =>
          rw [hQ] at hc
          have hqspec := hspec q (hQ ▸ List.mem_cons_self q qs)
          rw [joinWith_head? _ hqspec.1] at hc
          exact hqspec.2.2.1 c hc
      · intro c hc
        exact joinWith_getLast_not_ws _ _
          (fun q hq => ⟨(hspec q hq).1, (hspec q hq).2.2.2⟩) c hc
    show ((jsSplit (jsTrim (joinWith ['\n', '\n'] (trimmedBlocks_g s) ++
      ['\n', '\n']))).map jsTrim).filter (fun c => !c.isEmpty) = trimmedBlocks_g s
    rw [htrim, jsSplit_joinWith _ hP (fun q hq =>
      ⟨(hspec q hq).1, (hspec q hq).2.1, (hspec q hq).2.2.1, (hspec q hq).2.2.2⟩)]
    rw [map_jsTrim_id _ (trimmedBlocks_g_trimmed s),
      filter_nonempty_id _ (fun q hq => (hspec q hq).1)]


/-!
## Fence stripping: fuel irrelevance, stepping equations, and preservation
of fence-free text
-/

theorem dropLangNl_length (l : List Char) : (dropLangNl l).length ≤ l.length := by
  show (if (l.dropWhile isAsciiAlpha).head? = some '\n' then (l.dropWhile isAsciiAlpha).tail
      else l.dropWhile isAsciiAlpha).length ≤ l.length
  have hd : (l.dropWhile isAsciiAlpha).length ≤ l.length :=
    (List.dropWhile_sublist (l := l) (p := isAsciiAlpha)).length_le
  split
  · exact le_trans (by rw [List.length_tail]; omega) hd
  · exact hd

theorem sflF_irrel : ∀ (f₁ : Nat) {l : List Char} (f₂ : Nat),
    l.length ≤ f₁ → l.length ≤ f₂ → sflF f₁ l = sflF f₂ l := by
  intro f₁
  induction f₁ with
  | zero =>
    intro l f₂ h₁ _
    have hl : l = [] := List.eq_nil_of_length_eq_zero (Nat.le_zero.mp h₁)
    subst hl
    cases f₂ <;> rfl
  | succ f ih =>
    intro l f₂ h₁ h₂
    cases l with
    | nil => cases f₂ <;> rfl
    | cons c cs =>
      cases f₂ with
      | zero => simp at h₂
      | succ f₂ =>
        have hcs₁ : cs.length ≤ f := Nat.le_of_succ_le_succ h₁
        have hcs₂ : cs.length ≤ f₂ := Nat.le_of_succ_le_succ h₂
        simp only [sflF]
        by_cases hf : startsFence (c :: cs) = true
        · rw [if_pos hf, if_pos hf]
          have hd : (dropLangNl (cs.drop 2)).length ≤ cs.length :=
            le_trans (dropLangNl_length _) (by rw [List.length_drop]; omega)
          exact ih f₂ (le_trans hd hcs₁) (le_trans hd hcs₂)
        · rw [if_neg hf, if_neg hf]
          exact congrArg (c :: ·) (ih f₂ hcs₁ hcs₂)

theorem sf3F_irrel : ∀ (f₁ : Nat) {l : List Char} (f₂ : Nat),
    l.length ≤ f₁ → l.length ≤ f₂ → sf3F f₁ l = sf3F f₂ l := by
  intro f₁
  induction f₁ with
  | zero =>
    intro l f₂ h₁ _
    have hl : l = [] := List.eq_nil_of_length_eq_zero (Nat.le_zero.mp h₁)
    subst hl
    cases f₂ <;> rfl
  | succ f ih =>
    intro l f₂ h₁ h₂
    cases l with
    | nil => cases f₂ <;> rfl
    | cons c cs =>
      cases f₂ with
      | zero => simp at h₂
      | succ f₂ =>
        have hcs₁ : cs.length ≤ f := Nat.le_of_succ_le_succ h₁
        have hcs₂ : cs.length ≤ f₂ := Nat.le_of_succ_le_succ h₂
        simp only [sf3F]
        by_cases hf : startsFence (c :: cs) = true
        · rw [if_pos hf, if_pos hf]
          have hd : (cs.drop 2).length ≤ cs.length := by rw [List.length_drop]; omega
          exact ih f₂ (le_trans hd hcs₁) (le_trans hd hcs₂)
        · rw [if_neg hf, if_neg hf]
          exact congrArg (c :: ·) (ih f₂ hcs₁ hcs₂)

theorem stripFenceLang_step (c : Char) (cs : List Char) :
    stripFenceLang (c :: cs) =
      if startsFence (c :: cs) then stripFenceLang (dropLangNl (cs.drop 2))
      else c :: stripFenceLang cs := by
  show sflF (cs.length + 1) (c :: cs) = _
  simp only [sflF]
  by_cases hf : startsFence (c :: cs) = true
  · rw [if_pos hf, if_pos hf]
    have hd : (dropLangNl (cs.drop 2)).length ≤ cs.length :=
      le_trans (dropLangNl_length _) (by rw [List.length_drop]; omega)
    exact sflF_irrel cs.length _ hd (Nat.le_refl _)
  · rw [if_neg hf, if_neg hf]
    rfl

theorem stripFence3_step (c : Char) (cs : List Char) :
    stripFence3 (c :: cs) =
      if startsFence (c :: cs) then stripFence3 (cs.drop 2)
      else c :: stripFence3 cs := by
  show sf3F (cs.length + 1) (c :: cs) = _
  simp only [sf3F]
  by_cases hf : startsFence (c :: cs) = true
  · rw [if_pos hf, if_pos hf]
    have hd : (cs.drop 2).length ≤ cs.length := by rw [List.length_drop]; omega
    exact sf3F_irrel cs.length _ hd (Nat.le_refl _)
  · rw [if_neg hf, if_neg hf]
    rfl

theorem hasTriple_cons_false {c : Char} {cs : List Char} (h : hasTriple (c :: cs) = false) :
    startsFence (c :: cs) = false ∧ hasTriple cs = false := by
  simp only [hasTriple, Bool.or_eq_false_iff] at h
  exact h

theorem stripFenceLang_id : ∀ {l : List Char}, hasTriple l = false → stripFenceLang l = l := by
  intro l
  induction l with
  | nil => intro _; rfl
  | cons c cs ih =>
    intro h
    obtain ⟨h1, h2⟩ := hasTriple_cons_false h
    rw [stripFenceLang_step, if_neg (by simp [h1]), ih h2]

theorem stripFence3_id : ∀ {l : List Char}, hasTriple l = false → stripFence3 l = l := by
  intro l
  induction l with
  | nil => intro _; rfl
  | cons c cs ih =>
    intro h
    obtain ⟨h1, h2⟩ := hasTriple_cons_false h
    rw [stripFence3_step, if_neg (by simp [h1]), ih h2]

theorem startsFence_stable (c b₁ b₂ : Char) (x y : List Char) :
    startsFence (c :: b₁ :: b₂ :: x) = startsFence (c :: b₁ :: b₂ :: y) := rfl

theorem startsFence_of_third {c b₁ t : Char} {x : List Char} (ht : ¬ t = btick) :
    startsFence (c :: b₁ :: t :: x) = false := by
  simp [startsFence, ht]

theorem startsFence_of_second {c b : Char} {x : List Char} (hb : ¬ b = btick) :
    startsFence (c :: b :: x) = false := by
  cases x with
  | nil => rfl
  | cons t ts => simp [startsFence, hb]

theorem startsFence_append_false {c : Char} {body tail : List Char}
    (h1 : startsFence (c :: body) = false) (ht : tail.head? ≠ some btick) :
    startsFence (c :: (body ++ tail)) = false := by
  cases body with
  | nil =>
    cases tail with
    | nil => rfl
    | cons t1 ts =>
      have ht1 : ¬ t1 = btick := fun hh => ht (by rw [hh]; rfl)
      exact startsFence_of_second ht1
  | cons b1 body1 =>
    cases body1 with
    | nil =>
      cases tail with
      | nil => rfl
      | cons t1 ts =>
        have ht1 : ¬ t1 = btick := fun hh => ht (by rw [hh]; rfl)
        exact startsFence_of_third ht1
    | cons b2 rest => exact h1

theorem stripFenceLang_append {body tail : List Char} (hb : hasTriple body = false)
    (ht : tail.head? ≠ some btick) :
    stripFenceLang (body ++ tail) = body ++ stripFenceLang tail := by
  induction body with
  | nil => rfl
  | cons c body ih =>
    obtain ⟨h1, h2⟩ := hasTriple_cons_false hb
    have hsf : startsFence (c :: (body ++ tail)) = false := startsFence_append_false h1 ht
    rw [List.cons_append, stripFenceLang_step, if_neg (by simp [hsf]), ih h2, List.cons_append]

theorem hasTriple_append_single {body : List Char} {x : Char} (hb : hasTriple body = false)
    (hx : ¬ x = btick) : hasTriple (body ++ [x]) = false := by
  induction body with
  | nil =>
    show hasTriple [x] = false
    rfl
  | cons c body ih =>
    obtain ⟨h1, h2⟩ := hasTriple_cons_false hb
    have hsf : startsFence (c :: (body ++ [x])) = false :=
      startsFence_append_false h1 (fun hh => hx (by cases hh; rfl))
    show hasTriple (c :: (body ++ [x])) = false
    simp only [hasTriple, Bool.or_eq_false_iff]
    exact ⟨hsf, ih h2⟩

/-!
## BOM and CRLF normalization
-/

theorem stripBom_id {l : List Char} (h : l.head? ≠ some '﻿') : stripBom l = l := by
  cases l with
  | nil => rfl
  | cons c cs =>
    show (if c = '﻿' then cs else c :: cs) = c :: cs
    rw [if_neg (fun hh => h (by rw [hh]; rfl))]

theorem crlfToLf_cons_ne {c : Char} {x : List Char} (hc : ¬ c = '\r') :
    crlfToLf (c :: x) = c :: crlfToLf x := by
  cases x with
  | nil => rfl
  | cons d ds =>
    show (if c = '\r' ∧ d = '\n' then '\n' :: crlfToLf ds else c :: crlfToLf (d :: ds)) = _
    rw [if_neg (fun hh => hc hh.1)]

theorem crlfToLf_no_cr : ∀ {l : List Char}, '\r' ∉ l → crlfToLf l = l := by
  intro l
  induction l with
  | nil => intro _; rfl
  | cons c cs ih =>
    intro h
    have hc : ¬ c = '\r' := fun hh => h (by rw [hh]; exact List.mem_cons_self _ _)
    rw [crlfToLf_cons_ne hc, ih (fun hh => h (List.mem_cons_of_mem c hh))]

theorem crlfToLf_toCrlf : ∀ {l : List Char}, '\r' ∉ l → crlfToLf (toCrlf l) = l := by
  intro l
  induction l with
  | nil => intro _; rfl
  | cons c cs ih =>
    intro h
    have hc : ¬ c = '\r' := fun hh => h (by rw [hh]; exact List.mem_cons_self _ _)
    have hcs : '\r' ∉ cs := fun hh => h (List.mem_cons_of_mem c hh)
    by_cases hn : c = '\n'
    · subst hn
      show crlfToLf ('\r' :: '\n' :: toCrlf cs) = '\n' :: cs
      rw [show crlfToLf ('\r' :: '\n' :: toCrlf cs) = '\n' :: crlfToLf (toCrlf cs) by
        show (if ('\r' : Char) = '\r' ∧ ('\n' : Char) = '\n' then _ else _) = _
        rw [if_pos ⟨rfl, rfl⟩]]
      rw [ih hcs]
    · show crlfToLf (if c = '\n' then '\r' :: '\n' :: toCrlf cs else c :: toCrlf cs) = c :: cs
      rw [if_neg hn, crlfToLf_cons_ne hc, ih hcs]

theorem crToLf_no_cr : ∀ {l : List Char}, '\r' ∉ l → crToLf l = l := by
  intro l
  induction l with
  | nil => intro _; rfl
  | cons c cs ih =>
    intro h
    have hc : ¬ c = '\r' := fun hh => h (by rw [hh]; exact List.mem_cons_self _ _)
    show (if c = '\r' then '\n' else c) :: cs.map _ = c :: cs
    rw [if_neg hc]
    exact congrArg (c :: ·) (ih (fun hh => h (List.mem_cons_of_mem c hh)))


/-!
## The anchor search of `extractSrt`
-/

theorem findAnchor_spec : ∀ s : List Char,
    (findAnchor s = none ∧ ∀ i, anchorAt (s.drop i) = false) ∨
    (∃ i, findAnchor s = some (s.drop i) ∧ anchorAt (s.drop i) = true ∧
      ∀ j, j < i → anchorAt (s.drop j) = false) := by
  intro s
  induction s with
  | nil => exact Or.inl ⟨rfl, fun i => by rw [List.drop_nil]; rfl⟩
  | cons c cs ih =>
    by_cases h : anchorAt (c :: cs) = true
    · right
      refine ⟨0, ?_, by simpa using h, fun j hj => absurd hj (Nat.not_lt_zero j)⟩
      show (if anchorAt (c :: cs) = true then some (c :: cs) else findAnchor cs) = _
      rw [if_pos h]
      rfl
    · have h0 : anchorAt ((c :: cs).drop 0) = false := by
        simpa using Bool.not_eq_true (anchorAt (c :: cs)) ▸ h
      have hfa : findAnchor (c :: cs) = findAnchor cs := by
        show (if anchorAt (c :: cs) = true then some (c :: cs) else findAnchor cs) = _
        rw [if_neg h]
      rcases ih with ⟨hnone, hall⟩ | ⟨i, hsome, hanchor, hmin⟩
      · left
        refine ⟨by rw [hfa, hnone], ?_⟩
        intro i
        cases i with
        | zero => exact h0
        | succ i => simpa using hall i
      · right
        refine ⟨i + 1, ?_, by simpa using hanchor, ?_⟩
        · rw [hfa, hsome]
          rfl
        · intro j hj
          cases j with
          | zero => exact h0
          | succ j => simpa using hmin j (Nat.lt_of_succ_lt_succ hj)

/-!
## Counting surviving cues
-/

theorem count_cues_aux (f : Nat → List Char → List Char) (g : List Char → Bool)
    (hfg : ∀ i e, f i e = [] ↔ g e = false) :
    ∀ (l : List (List Char)) (n : Nat),
      (((enumF n l).map (fun p => f p.1 p.2)).filter (fun c => !c.isEmpty)).length =
        (l.filter g).length := by
  intro l
  induction l with
  | nil => intro n; rfl
  | cons e es ih =>
    intro n
    show ((((n, e) :: enumF (n + 1) es).map (fun p => f p.1 p.2)).filter
      (fun c => !c.isEmpty)).length = ((e :: es).filter g).length
    rw [List.map_cons, List.filter_cons, List.filter_cons]
    cases hg : g e with
    | false =>
      have hfe : f n e = [] := (hfg n e).mpr hg
      rw [hfe]
      simp only [List.isEmpty_nil, Bool.not_true, if_neg (by simp : ¬ (false = true)), hg,
        if_neg (by simp : ¬ (false = true))]
      exact ih (n + 1)
    | true =>
      have hfe : ¬ f n e = [] := fun hh => by rw [(hfg n e).mp hh] at hg; cases hg
      have hb : (!(f n e).isEmpty) = true := by
        cases hfee : f n e with
        | nil => cases hfe hfee
        | cons a as => rfl
      rw [if_pos hb, if_pos rfl]
      simp only [List.length_cons]
      rw [ih (n + 1)]

theorem cueOf_p0_eq_nil_iff (i : Nat) (e : List Char) :
    cueOf_p0 i e = [] ↔ ((tsIdx e).isSome && !(textLinesOf e).isEmpty) = false := by
  constructor
  · intro h
    cases ht : tsIdx e with
    | none => rfl
    | some k =>
      simp only [cueOf_p0, ht] at h
      split at h
      · rename_i hemp
        simp only [textLinesOf, ht]
        simp [hemp]
      · simp at h
  · intro h
    cases ht : tsIdx e with
    | none => simp [cueOf_p0, ht]
    | some k =>
      rw [ht] at h
      simp only [Option.isSome_some, Bool.true_and, Bool.not_eq_false'] at h
      simp only [textLinesOf, ht] at h
      simp only [cueOf_p0, ht]
      rw [if_pos h]

theorem cueOf_p2_eq_nil_iff (i : Nat) (e : List Char) :
    cueOf_p2 i e = [] ↔ (tsIdx e).isSome = false := by
  constructor
  · intro h
    cases ht : tsIdx e with
    | none => rfl
    | some k =>
      simp only [cueOf_p2, ht] at h
      simp at h
  · intro h
    cases ht : tsIdx e with
    | none => simp [cueOf_p2, ht]
    | some k => rw [ht] at h; cases h

theorem srtCues_nil_of_bad : ∀ (l : List (List Char)) (n : Nat),
    (∀ e ∈ l, ((tsIdx e).isSome && !(textLinesOf e).isEmpty) = false) →
    ((enumF n l).map (fun p => cueOf_p0 p.1 p.2)).filter (fun c => !c.isEmpty) = [] := by
  intro l
  induction l with
  | nil => intro n _; rfl
  | cons e es ih =>
    intro n hall
    have he : cueOf_p0 n e = [] := (cueOf_p0_eq_nil_iff n e).mpr (hall e (List.mem_cons_self e es))
    show (((n, e) :: enumF (n + 1) es).map (fun p => cueOf_p0 p.1 p.2)).filter
      (fun c => !c.isEmpty) = []
    rw [List.map_cons, List.filter_cons]
    simp only [he, List.isEmpty_nil, Bool.not_true, if_neg (by simp : ¬ (false = true))]
    exact ih (n + 1) (fun x hx => hall x (List.mem_cons_of_mem e hx))


/-!
## Helper: a list whose last character is not whitespace either is empty or
ends in a character other than a newline
-/

theorem ends_nonws_cases {t : List Char}
    (h : ∀ c, t.getLast? = some c → isWs c = false) :
    t = [] ∨ ∃ u c, t = u ++ [c] ∧ (c == '\n') = false := by
  by_cases hne : t = []
  · exact Or.inl hne
  · right
    refine ⟨t.dropLast, t.getLast hne, (List.dropLast_append_getLast hne).symm, ?_⟩
    have hw := h _ (List.getLast?_eq_getLast t hne)
    cases hbe : (t.getLast hne == '\n') with
    | false => rfl
    | true =>
      have heq : t.getLast hne = '\n' := by simpa using hbe
      rw [heq, (by decide : isWs '\n' = true)] at hw
      cases hw

/-!
## The claims
-/

/-- Claim C1: for every input string, the document produced by
`normalizeSrt` (geminiService.ts) and the document produced by the
`cleanSrt` pipeline of `mergeVideoAndSubtitles` (ffmpegService.ts) end with
exactly two newline characters (one trailing blank line) and no more: the
output is some prefix followed by exactly `"\n\n"`, where the prefix is
empty or ends in a non-newline character.  This is proved for all inputs,
in particular for every non-empty input as the claim states. -/
theorem c1_trailing_blank_line :
    (∀ s : List Char, ∃ t, normalizeSrt_g s = t ++ ['\n', '\n'] ∧
      (t = [] ∨ ∃ u c, t = u ++ [c] ∧ (c == '\n') = false)) ∧
    (∀ s : List Char, ∃ t, cleanSrtFf s = t ++ ['\n', '\n'] ∧
      (t = [] ∨ ∃ u c, t = u ++ [c] ∧ (c == '\n') = false)) := by
  constructor
  · intro s
    refine ⟨joinWith ['\n', '\n'] (trimmedBlocks_g s), rfl, ?_⟩
    exact ends_nonws_cases (joinWith_getLast_not_ws _ _
      (fun p hp => ⟨(trimmedBlocks_g_spec s p hp).1, (trimmedBlocks_g_spec s p hp).2.2.2⟩))
  · intro s
    refine ⟨jsTrim (crToLf (crlfToLf (stripBom s))), rfl, ?_⟩
    exact ends_nonws_cases (fun _ hc => jsTrim_getLast_not_ws hc)

/-- Claim C2 (code bug): evaluating `normalizeSrt` of `src/unnamed/part_000`
at an input whose first block is malformed (no timestamp line) shows that
the surviving cue is numbered `2`, not `1`: the map index counts all blocks
of the input, dropped blocks included, so dropping a block skips an index.
This contradicts the claim (and the function's own documentation, which
promises strictly standard SRT with fixed indices). -/
theorem c2_index_gap_eval :
    normalizeSrt_p0 (("garbage\n\n00:00:01,000 --> 00:00:02,000\nHello").data) =
      ("2\n00:00:01,000 --> 00:00:02,000\nHello\n").data := by decide

/-- Claim C3 (counterexample): on an input containing zero parseable cues
(commentary text with no timestamp line), `normalizeSrt` of
`src/unnamed/part_000` returns the empty string.  The source function is a
total `string -> string` map with no error channel and its caller returns
the result unchecked, so no failure is signalled, contradicting the claim. -/
theorem c3_counterexample :
    normalizeSrt_p0 (("Sorry, here is some commentary with no timestamps.").data) = [] := by
  decide

/-- Claim C3 (amended): whenever every block of the input is malformed
(no timestamp line, or no text lines), `normalizeSrt` of part_000 returns
the empty string; no error is signalled. -/
theorem c3_amended : ∀ s : List Char,
    (∀ e ∈ jsSplit (jsTrim s), ((tsIdx e).isSome && !(textLinesOf e).isEmpty) = false) →
    normalizeSrt_p0 s = [] := by
  intro s h
  show joinWith ['\n'] (srtCues_p0 s) = []
  rw [show srtCues_p0 s = [] from srtCues_nil_of_bad (jsSplit (jsTrim s)) 0 h]
  rfl

/-- Witness for the amended claim C3 at a concrete commentary-only input. -/
theorem c3_amended_witness :
    (∀ e ∈ jsSplit (jsTrim (("Chat noise only").data)),
      ((tsIdx e).isSome && !(textLinesOf e).isEmpty) = false) ∧
    normalizeSrt_p0 (("Chat noise only").data) = [] :=
  ⟨by decide, c3_amended _ (by decide)⟩

/-- Claim C4: in `normalizeSrt` of `src/unnamed/part_000`, a block with no
timestamp line and a block with a timestamp line but zero text lines are
both absent from the parsed result: the number of surviving cues equals the
number of blocks having both a timestamp line and at least one text line,
and every such malformed block maps to the dropped empty entry.  The
embedding is a total function, so no exception is ever raised. -/
theorem c4_cue_dropping :
    (∀ s : List Char, (srtCues_p0 s).length =
      ((jsSplit (jsTrim s)).filter
        (fun e => (tsIdx e).isSome && !(textLinesOf e).isEmpty)).length) ∧
    (∀ (i : Nat) (e : List Char),
      ((tsIdx e).isSome && !(textLinesOf e).isEmpty) = false → cueOf_p0 i e = []) := by
  constructor
  · intro s
    exact count_cues_aux cueOf_p0 _ cueOf_p0_eq_nil_iff (jsSplit (jsTrim s)) 0
  · intro i e h
    exact (cueOf_p0_eq_nil_iff i e).mpr h

/-- Witness for claim C4: a text-only block and a timestamp-only block are
both dropped. -/
theorem c4_witness :
    (((tsIdx (("just commentary").data)).isSome &&
        !(textLinesOf (("just commentary").data)).isEmpty) = false ∧
      cueOf_p0 0 (("just commentary").data) = []) ∧
    (((tsIdx (("00:00:01,000 --> 00:00:02,000").data)).isSome &&
        !(textLinesOf (("00:00:01,000 --> 00:00:02,000").data)).isEmpty) = false ∧
      cueOf_p0 0 (("00:00:01,000 --> 00:00:02,000").data) = []) :=
  ⟨⟨by decide, c4_cue_dropping.2 0 _ (by decide)⟩,
    ⟨by decide, c4_cue_dropping.2 0 _ (by decide)⟩⟩

/-- Claim C5 (counterexample): the claim quantifies over the cited
`normalizeSrt` implementations, but the part_000 renumbering variant is not
idempotent.  On an input whose first block is dropped, the first pass emits
a cue numbered `2` (its position among all blocks, dropped ones included),
and the second pass - now seeing a single block - renumbers it to `1`, so
`normalizeSrt (normalizeSrt s)` differs from `normalizeSrt s`. -/
theorem c5_counterexample :
    normalizeSrt_p0 (("garbage\n\n00:00:01,000 --> 00:00:02,000\nHello").data) =
      ("2\n00:00:01,000 --> 00:00:02,000\nHello\n").data ∧
    normalizeSrt_p0 (normalizeSrt_p0
        (("garbage\n\n00:00:01,000 --> 00:00:02,000\nHello").data)) =
      ("1\n00:00:01,000 --> 00:00:02,000\nHello\n").data ∧
    ((normalizeSrt_p0 (normalizeSrt_p0
        (("garbage\n\n00:00:01,000 --> 00:00:02,000\nHello").data))) ==
      (normalizeSrt_p0 (("garbage\n\n00:00:01,000 --> 00:00:02,000\nHello").data))) = false :=
  ⟨by decide, by decide, by decide⟩

/-- Claim C5 (amended): the join-based `normalizeSrt` of geminiService.ts
is idempotent: for every input string `s`,
`normalizeSrt (normalizeSrt s) = normalizeSrt s`.  (The part_000
renumbering variant is not: its indices are re-assigned from the block
position counting dropped blocks, so a second pass renumbers them - see the
counterexample above.) -/
theorem c5_idempotent (s : List Char) :
    normalizeSrt_g (normalizeSrt_g s) = normalizeSrt_g s := by
  show joinWith ['\n', '\n'] (trimmedBlocks_g (normalizeSrt_g s)) ++ ['\n', '\n'] =
    joinWith ['\n', '\n'] (trimmedBlocks_g s) ++ ['\n', '\n']
  rw [trimmedBlocks_g_of_norm]

/-- Claim C6: for clean content (no carriage returns, no byte-order mark),
the `cleanSrt` pipeline of `mergeVideoAndSubtitles` produces exactly the
same output on the content prefixed with a BOM and re-encoded with Windows
CRLF line endings as on the clean Unix-ending content: BOM removal and
CRLF-to-LF conversion happen before the trim and the appended blank line. -/
theorem c6_bom_crlf_equiv : ∀ s : List Char, '\r' ∉ s → '﻿' ∉ s →
    cleanSrtFf ('﻿' :: toCrlf s) = cleanSrtFf s := by
  intro s hr hb
  show jsTrim (crToLf (crlfToLf (stripBom ('﻿' :: toCrlf s)))) ++ ['\n', '\n'] =
    jsTrim (crToLf (crlfToLf (stripBom s))) ++ ['\n', '\n']
  have h1 : stripBom ('﻿' :: toCrlf s) = toCrlf s := by
    show (if ('﻿' : Char) = '﻿' then toCrlf s else '﻿' :: toCrlf s) = toCrlf s
    rw [if_pos rfl]
  have h2 : stripBom s = s := by
    apply stripBom_id
    intro hh
    cases s with
    | nil => cases hh
    | cons c cs =>
      injection hh with h3
      exact hb (h3 ▸ List.mem_cons_self c cs)
  rw [h1, h2, crlfToLf_toCrlf hr, crlfToLf_no_cr hr]

/-- Witness for claim C6 at a concrete clean SRT cue. -/
theorem c6_witness :
    ('\r' ∉ (("1\n00:00:01,000 --> 00:00:02,000\nHello").data) ∧
      '﻿' ∉ (("1\n00:00:01,000 --> 00:00:02,000\nHello").data)) ∧
    cleanSrtFf ('﻿' :: toCrlf (("1\n00:00:01,000 --> 00:00:02,000\nHello").data)) =
      cleanSrtFf (("1\n00:00:01,000 --> 00:00:02,000\nHello").data) :=
  ⟨⟨by decide, by decide⟩, c6_bom_crlf_equiv _ (by decide) (by decide)⟩

/-- Claim C7 (counterexample): the extraction regex of `translateSubtitles`
is not anchored to line boundaries.  On an input containing no line that
consists solely of a positive integer followed by a timestamp line (the
whole input is one line), the claim requires the input to be returned
unchanged, but the code returns the suffix starting inside the word `x12`. -/
theorem c7_counterexample :
    specAnchorExists (("x12 00:00:01,000 --> 00:00:02,000 hi").data) = false ∧
    extractSrt (("x12 00:00:01,000 --> 00:00:02,000 hi").data) =
      ("12 00:00:01,000 --> 00:00:02,000 hi").data ∧
    ((("12 00:00:01,000 --> 00:00:02,000 hi").data) ==
      (("x12 00:00:01,000 --> 00:00:02,000 hi").data)) = false :=
  ⟨by decide, by decide, by decide⟩

/-- Claim C7 (amended): `extractSrt` returns the suffix of its input
starting at the first position where the pattern
`digits+, whitespace+, timestamp, whitespace+, arrow, whitespace+,
timestamp` matches — the digits need not occupy their own line, need not be
positive, and the whitespace need not be a newline; when the pattern
matches at no position the input is returned unchanged. -/
theorem c7_amended : ∀ s : List Char,
    ((∀ i, anchorAt (s.drop i) = false) ∧ extractSrt s = s) ∨
    (∃ i, anchorAt (s.drop i) = true ∧ extractSrt s = s.drop i ∧
      ∀ j, j < i → anchorAt (s.drop j) = false) := by
  intro s
  rcases findAnchor_spec s with ⟨hn, hall⟩ | ⟨i, hs, ha, hmin⟩
  · refine Or.inl ⟨hall, ?_⟩
    show (findAnchor s).getD s = s
    rw [hn]
    rfl
  · refine Or.inr ⟨i, ha, ?_, hmin⟩
    show (findAnchor s).getD s = s.drop i
    rw [hs]
    rfl

/-- Witness for the amended claim C7: on a concrete input the extraction
drops exactly the one-character preamble before the first match. -/
theorem c7_amended_witness :
    extractSrt (("x1 00:00:00,000 --> 00:00:01,000 ok").data) =
      ((("x1 00:00:00,000 --> 00:00:01,000 ok").data).drop 1) := by
  have h1 : anchorAt ((("x1 00:00:00,000 --> 00:00:01,000 ok").data).drop 1) = true := by
    decide
  have h0 : anchorAt ((("x1 00:00:00,000 --> 00:00:01,000 ok").data).drop 0) = false := by
    decide
  rcases c7_amended (("x1 00:00:00,000 --> 00:00:01,000 ok").data) with
    ⟨hall, _⟩ | ⟨i, ha, he, hmin⟩
  · rw [hall 1] at h1
    exact absurd h1 (by decide)
  · match i, ha, he, hmin with
    | 0, ha, he, hmin => rw [ha] at h0; exact absurd h0 (by decide)
    | 1, ha, he, hmin => exact he
    | (j + 2), ha, he, hmin =>
      have h2 := hmin 1 (by omega)
      rw [h2] at h1
      exact absurd h1 (by decide)


/-- Claim C8 (counterexample): the fence-cleaning pipeline of
`translateSubtitles` ends in `trim()`, so a fenced body carrying leading
whitespace does not sanitize to exactly the body: the body `" x"` (which
contains no fence marker) comes back as `"x"`. -/
theorem c8_counterexample :
    hasTriple ((" x").data) = false ∧
    sanitizeFences (("```srt\n x\n```").data) = ("x").data ∧
    ((("x").data) == ((" x").data)) = false :=
  ⟨by decide, by decide, by decide⟩

/-- Claim C8 (amended): for any body containing no triple backtick, the
wrapped input made of an opening fence with language tag, the body, and a
closing fence sanitizes to exactly the trimmed body — equal to the body
itself whenever the body carries no leading or trailing whitespace. -/
theorem c8_amended : ∀ body : List Char, hasTriple body = false →
    sanitizeFences ((("```srt\n").data) ++ (body ++ (("\n```").data))) = jsTrim body := by
  intro body hb
  show jsTrim (stripFence3 (stripFenceLang
    ((("```srt\n").data) ++ (body ++ (("\n```").data))))) = jsTrim body
  have e1 : (("```srt\n").data) ++ (body ++ (("\n```").data)) =
      btick :: btick :: btick ::
        ('s' :: 'r' :: 't' :: '\n' :: (body ++ ('\n' :: btick :: btick :: btick :: []))) := rfl
  rw [e1]
  have hsf : startsFence (btick :: btick :: btick ::
      ('s' :: 'r' :: 't' :: '\n' :: (body ++ ('\n' :: btick :: btick :: btick :: [])))) = true :=
    rfl
  rw [stripFenceLang_step, if_pos hsf]
  have e2 : dropLangNl ((btick :: btick ::
      ('s' :: 'r' :: 't' :: '\n' :: (body ++ ('\n' :: btick :: btick :: btick :: [])))).drop 2) =
      body ++ ('\n' :: btick :: btick :: btick :: []) := rfl
  rw [e2]
  rw [stripFenceLang_append hb (by decide)]
  rw [show stripFenceLang ('\n' :: btick :: btick :: btick :: []) = ['\n'] by decide]
  rw [stripFence3_id (hasTriple_append_single hb (by decide))]
  exact jsTrim_append_ws body (by decide)

/-- Witness for the amended claim C8 at a concrete fence-free body. -/
theorem c8_amended_witness :
    hasTriple (("Hello world").data) = false ∧
    sanitizeFences ((("```srt\n").data) ++ ((("Hello world").data) ++ (("\n```").data))) =
      jsTrim (("Hello world").data) :=
  ⟨by decide, c8_amended _ (by decide)⟩

/-- Claim C9 (counterexample): the replace stages of the fence cleaning
recognize three backticks anywhere, not only at line boundaries with the
full fence syntax.  In the input `"a```b"` the backticks occur only
mid-line (the single line neither starts nor ends with a backtick and is
not a fence line), yet the cue text does not survive: the opening-fence
regex also swallows the following letter, leaving just `"a"`. -/
theorem c9_counterexample :
    ((splitNl (("a```b").data)).all
      (fun l => !startsFence l && (l.head? ≠ some btick) && (l.getLast? ≠ some btick))) = true ∧
    stripFence3 (stripFenceLang (("a```b").data)) = ("a").data ∧
    ((("a").data) == (("a```b").data)) = false :=
  ⟨by decide, by decide, by decide⟩

/-- Claim C9 (amended): the two replace stages remove three consecutive
backticks (with any attached language tag and newline) wherever they occur,
including mid-line; text whose backtick runs are all shorter than three
characters survives the replace stages unchanged. -/
theorem c9_amended : ∀ s : List Char, hasTriple s = false →
    stripFence3 (stripFenceLang s) = s := by
  intro s h
  rw [stripFenceLang_id h, stripFence3_id h]

/-- Witness for the amended claim C9: single and double backticks in cue
text survive. -/
theorem c9_amended_witness :
    hasTriple (("don`t `` stop").data) = false ∧
    stripFence3 (stripFenceLang (("don`t `` stop").data)) = ("don`t `` stop").data :=
  ⟨by decide, c9_amended _ (by decide)⟩

/-- Claim C10: in the `normalizeSrt` variant of `src/unnamed/part_002`, a
block with a timestamp line survives even when it has no text lines: the
surviving-cue count equals the number of blocks with a timestamp line (no
empty-text check), and a block whose timestamp line is its last line yields
the cue `index+1 \n timestamps \n` followed by an empty text section and
the closing newline. -/
theorem c10_empty_text_retained :
    (∀ s : List Char, (srtCues_p2 s).length =
      ((jsSplit (jsTrim s)).filter (fun e => (tsIdx e).isSome)).length) ∧
    (∀ (i : Nat) (e : List Char) (k : Nat), tsIdx e = some k →
      (linesOf e).drop (k + 1) = [] →
      cueOf_p2 i e = natStr (i + 1) ++ ['\n'] ++ (linesOf e).getD k [] ++ ['\n', '\n'] ∧
      cueOf_p2 i e ≠ []) := by
  constructor
  · intro s
    exact count_cues_aux cueOf_p2 _ cueOf_p2_eq_nil_iff (jsSplit (jsTrim s)) 0
  · intro i e k ht hdrop
    have hform : cueOf_p2 i e =
        natStr (i + 1) ++ ['\n'] ++ (linesOf e).getD k [] ++ ['\n', '\n'] := by
      simp only [cueOf_p2, ht, hdrop]
      simp [joinWith, List.append_assoc]
    refine ⟨hform, ?_⟩
    rw [hform]
    simp

/-- Witness for claim C10: a block whose only content is a timestamp line
is kept, with an empty text section. -/
theorem c10_witness :
    (tsIdx (("5\n00:00:01,000 --> 00:00:02,000").data) = some 1 ∧
      (linesOf (("5\n00:00:01,000 --> 00:00:02,000").data)).drop 2 = []) ∧
    cueOf_p2 0 (("5\n00:00:01,000 --> 00:00:02,000").data) =
      natStr 1 ++ ['\n'] ++
        (linesOf (("5\n00:00:01,000 --> 00:00:02,000").data)).getD 1 [] ++ ['\n', '\n'] ∧
    cueOf_p2 0 (("5\n00:00:01,000 --> 00:00:02,000").data) ≠ [] :=
  ⟨⟨by decide, by decide⟩,
    c10_empty_text_retained.2 0 (("5\n00:00:01,000 --> 00:00:02,000").data) 1
      (by decide) (by decide)⟩


end VSub
